import Mathlib

/-! # Source extractors of `utils/source.go`

A shallow embedding of the Go package `utils` (file `utils/source.go`): the
`SourceExtractor` strategies selected by a configuration string, and the
factory `NewExtractor`.

Conventions of the embedding.

* A Go `string` is a Lean `String`.  Every library operation the package uses
  compares, cuts or splits at ASCII characters only, so working on code points
  agrees with working on the UTF-8 bytes.
* A Go `error` is an `Option String`: `none` is `nil`, `some msg` is an error
  whose `Error()` text is `msg`.
* `int64` amounts are `Int`; the package only ever produces `0` and `1`.
* A result of type `Option _` for a function body means: `none` is a run-time
  panic (index out of range), `some r` is a normal return of `r`.
* The functions of the Go standard library that the package calls
  (`strings.HasPrefix`, `strings.TrimPrefix`, `strings.SplitN`,
  `http.Header.Get`) are embedded from their library definitions, under their
  library names.
-/

namespace Oxy

/-! ## Standard library: package `strings` -/

/-- Go `error`: `none` is `nil`, `some msg` an error with message `msg`. -/
abbrev error := Option String

/-- The function `strings.HasPrefix(s, pre)`:
`len(s) >= len(pre) && s[:len(pre)] == pre`. -/
def HasPrefix (s pre : String) : Bool :=
  decide (pre.length ≤ s.length) && (s.data.take pre.length == pre.data)

/-- The function `strings.TrimPrefix(s, pre)`: `s` without the leading `pre`
when `s` starts with it, `s` unchanged otherwise. -/
def TrimPrefix (s pre : String) : String :=
  if HasPrefix s pre then ⟨s.data.drop pre.length⟩ else s

/-- Position of the first occurrence of `sep` in `s`, counted from `i`;
`-1` when there is none.  The scan that `strings.genSplit` and `strings.Count`
run through `strings.Index`.  Positions count characters of the embedding,
the unit in which the callers below cut `s` with `take` and `drop`; they are
positions inside this embedding only, not Go byte offsets. -/
def indexAux (sep : List Char) : List Char → Nat → Int
  | [], i => if sep.isPrefixOf [] then (i : Int) else -1
  | c :: cs, i => if sep.isPrefixOf (c :: cs) then (i : Int) else indexAux sep cs (i + 1)

/-- The loop of `strings.Count` for a non-empty `sep`: the number of
non-overlapping occurrences. Each round consumes at least one character, so
`fuel = len(s) + 1` rounds are enough. -/
def countAux (sep : List Char) : Nat → List Char → Nat
  | 0, _ => 0
  | fuel + 1, s =>
    let i := indexAux sep s 0
    if i < 0 then 0 else 1 + countAux sep fuel (s.drop (i.toNat + sep.length))

/-- The function `strings.Count(s, sep)`. -/
def Count (s sep : String) : Int :=
  if sep.length = 0 then (s.length : Int) + 1
  else (countAux sep.data (s.length + 1) s.data : Int)

/-- The loop of `strings.explode`: `k` one-character pieces, then the rest. -/
def explodeLoop : Nat → List Char → List String
  | 0, s => [⟨s⟩]
  | k + 1, [] => "" :: explodeLoop k []
  | k + 1, c :: cs => ⟨[c]⟩ :: explodeLoop k cs

/-- The function `strings.explode(s, n)`: split `s` into at most `n`
characters-as-strings, the last one holding the unsplit rest. -/
def explode (s : String) (n : Int) : List String :=
  let l : Int := s.length
  let n := if n < 0 ∨ n > l then l else n
  if n > 0 then explodeLoop (n.toNat - 1) s.data else []

/-- The loop of `strings.genSplit`: while fewer than `k` cuts were made and
`sep` still occurs, cut off the piece before it (keeping `sepSave` characters
of the separator); the last piece is what remains. -/
def genSplitLoop (sep : List Char) (sepSave : Nat) : Nat → List Char → List String
  | 0, s => [⟨s⟩]
  | k + 1, s =>
    let m := indexAux sep s 0
    if m < 0 then [⟨s⟩]
    else ⟨s.take (m.toNat + sepSave)⟩ :: genSplitLoop sep sepSave k (s.drop (m.toNat + sep.length))

/-- The function `strings.genSplit(s, sep, sepSave, n)`. -/
def genSplit (s sep : String) (sepSave : Nat) (n : Int) : List String :=
  if n = 0 then []
  else if sep = "" then explode s n
  else
    let n := if n < 0 then Count s sep + 1 else n
    let n := if n > (s.length : Int) + 1 then (s.length : Int) + 1 else n
    genSplitLoop sep.data sepSave (n.toNat - 1) s.data

/-- The function `strings.SplitN(s, sep, n)`. -/
def SplitN (s sep : String) (n : Int) : List String := genSplit s sep 0 n

/-! ## Standard library: `http.Header` and `http.Request` -/

/-- The predicate `validHeaderFieldByte` of `net/textproto`: the token
characters of RFC 7230 (letters, digits and the punctuation signs listed by
their ASCII codes). -/
def validHeaderFieldByte (c : Char) : Bool :=
  c.isAlphanum || [33, 35, 36, 37, 38, 39, 42, 43, 45, 46, 94, 95, 96, 124, 126].contains c.toNat

/-- The second loop of `canonicalMIMEHeaderKey`: upper case for the first
letter and for each letter after a dash, lower case for the other letters. -/
def canonLoop : Bool → List Char → List Char
  | _, [] => []
  | upper, c :: cs =>
    let c1 :=
      if upper && decide ('a' ≤ c ∧ c ≤ 'z') then Char.ofNat (c.toNat - 32)
      else if !upper && decide ('A' ≤ c ∧ c ≤ 'Z') then Char.ofNat (c.toNat + 32)
      else c
    c1 :: canonLoop (c1 == '-') cs

/-- The first loop of `canonicalMIMEHeaderKey`: `none` when a character other
than a token character or a space occurs (the key is returned unchanged),
otherwise `some noCanon`, where `noCanon` tells that a space was seen. -/
def canonScan : Bool → List Char → Option Bool
  | noCanon, [] => some noCanon
  | noCanon, c :: cs =>
    if validHeaderFieldByte c then canonScan noCanon cs
    else if c = ' ' then canonScan true cs
    else none

/-- The helper `canonicalMIMEHeaderKey` of `net/textproto` (its string
result). -/
def canonicalMIMEHeaderKey (a : List Char) : List Char :=
  match canonScan false a with
  | none => a
  | some true => a
  | some false => canonLoop true a

/-- The quick check of `CanonicalMIMEHeaderKey`, on the suffix `rest` of the
key `s`, with `upper` telling whether an upper-case letter is expected. -/
def canonQuick (s : List Char) : Bool → List Char → List Char
  | _, [] => s
  | upper, c :: cs =>
    if !validHeaderFieldByte c then s
    else if upper && decide ('a' ≤ c ∧ c ≤ 'z') then canonicalMIMEHeaderKey s
    else if !upper && decide ('A' ≤ c ∧ c ≤ 'Z') then canonicalMIMEHeaderKey s
    else canonQuick s (c == '-') cs

/-- The function `textproto.CanonicalMIMEHeaderKey(s)`. -/
def CanonicalMIMEHeaderKey (s : String) : String := ⟨canonQuick s.data true s.data⟩

/-- The type `http.Header`, a `map[string][]string`, as an association list
read by its first matching key. -/
abbrev Header := List (String × List String)

/-- The method `Header.Get(key)`: the first value stored under the canonical
form of `key`, the empty string when there is none. -/
def Header.Get (h : Header) (key : String) : String :=
  match h.lookup (CanonicalMIMEHeaderKey key) with
  | none => ""
  | some [] => ""
  | some (v :: _) => v

/-- The fields of `http.Request` that the package reads. -/
structure Request where
  RemoteAddr : String
  Host : String
  Header : Header

/-! ## Package `utils`, file `source.go` -/

/-- What `Extract` hands back: `(token, amount, err)`. -/
abbrev Extracted := String × Int × error

/-- The struct `ExtractorFunc`: a key and the extraction function. -/
structure ExtractorFunc where
  Key : String
  Func : Request → Option Extracted

/-- The interface `SourceExtractor`; `ExtractorFunc` is its one
implementation. -/
abbrev SourceExtractor := ExtractorFunc

/-- The method `ExtractorFunc.String`. -/
def ExtractorFunc.String (f : ExtractorFunc) : String := f.Key

/-- The method `ExtractorFunc.Extract`. -/
def ExtractorFunc.Extract (f : ExtractorFunc) (req : Request) : Option Extracted :=
  f.Func req

/-- The function `extractClientIP`: the piece of `req.RemoteAddr` before its
first colon; an error when that piece is empty. The indexing `vals[0]` panics
on an empty slice. -/
def extractClientIP (req : Request) : Option Extracted :=
  let vals := SplitN req.RemoteAddr ":" 2
  match vals with
  | [] => none
  | v0 :: _ =>
    if v0.length = 0 then
      some ("", 0, some ("failed to parse client IP: " ++ req.RemoteAddr))
    else some (v0, 1, none)

/-- The function `extractHost`. -/
def extractHost (req : Request) : Option Extracted :=
  some (req.Host, 1, none)

/-- The function `makeHeaderExtractor`. -/
def makeHeaderExtractor (header : String) : SourceExtractor :=
  { Key := "request.header." ++ header,
    Func := fun req => some (req.Header.Get header, 1, none) }

/-- The function `NewExtractor`: the strategy for a selector, or an error. -/
def NewExtractor (var : String) : Option SourceExtractor × error :=
  if var = "client.ip" then
    (some { Key := var, Func := extractClientIP }, none)
  else if var = "request.host" then
    (some { Key := var, Func := extractHost }, none)
  else if HasPrefix var "request.header." then
    let header := TrimPrefix var "request.header."
    if header.length = 0 then
      (none, some ("wrong header: " ++ header))
    else (some (makeHeaderExtractor header), none)
  else (none, some ("unsupported limiting variable: '" ++ var ++ "'"))

/-! ## Lemmas on the library functions -/

theorem hasPrefix_iff (s pre : String) :
    HasPrefix s pre = true ↔ ∃ t : String, s = pre ++ t := by
  constructor
  · intro h
    simp only [HasPrefix, Bool.and_eq_true, decide_eq_true_eq, beq_iff_eq] at h
    refine ⟨⟨s.data.drop pre.length⟩, ?_⟩
    apply String.ext
    rw [String.data_append, ← h.2]
    exact (List.take_append_drop _ _).symm
  · rintro ⟨t, rfl⟩
    unfold HasPrefix
    rw [Bool.and_eq_true, decide_eq_true_eq, beq_iff_eq, String.data_append, String.length_append]
    refine ⟨Nat.le_add_right _ _, ?_⟩
    show List.take pre.data.length (pre.data ++ t.data) = pre.data
    rw [List.take_left]

theorem trimPrefix_append (pre t : String) : TrimPrefix (pre ++ t) pre = t := by
  have h : HasPrefix (pre ++ t) pre = true := (hasPrefix_iff _ _).2 ⟨t, rfl⟩
  unfold TrimPrefix
  rw [if_pos h]
  apply String.ext
  show List.drop pre.data.length (pre ++ t).data = t.data
  rw [String.data_append, List.drop_left]

theorem length_eq_zero_iff (s : String) : s.length = 0 ↔ s = "" := by
  constructor
  · intro h
    apply String.ext
    exact List.length_eq_zero.1 h
  · rintro rfl
    rfl

/-! ## The factory -/

theorem newExtractor_clientIP :
    NewExtractor "client.ip" = (some { Key := "client.ip", Func := extractClientIP }, none) := by
  rfl

theorem newExtractor_host :
    NewExtractor "request.host" = (some { Key := "request.host", Func := extractHost }, none) := by
  rfl

theorem newExtractor_header (N : String) (hN : N ≠ "") :
    NewExtractor ("request.header." ++ N) = (some (makeHeaderExtractor N), none) := by
  have h1 : "request.header." ++ N ≠ "client.ip" := by
    intro h
    have hp : HasPrefix "client.ip" "request.header." = true :=
      (hasPrefix_iff _ _).2 ⟨N, h.symm⟩
    revert hp
    decide
  have h2 : "request.header." ++ N ≠ "request.host" := by
    intro h
    have hp : HasPrefix "request.host" "request.header." = true :=
      (hasPrefix_iff _ _).2 ⟨N, h.symm⟩
    revert hp
    decide
  have h3 : HasPrefix ("request.header." ++ N) "request.header." = true :=
    (hasPrefix_iff _ _).2 ⟨N, rfl⟩
  have h4 : ¬ N.length = 0 := fun h => hN ((length_eq_zero_iff N).1 h)
  unfold NewExtractor
  rw [if_neg h1, if_neg h2, if_pos h3]
  simp only [trimPrefix_append, if_neg h4]

theorem newExtractor_header_empty :
    NewExtractor "request.header." = (none, some "wrong header: ") := by
  rfl

theorem newExtractor_other (s : String) (h1 : s ≠ "client.ip") (h2 : s ≠ "request.host")
    (h3 : HasPrefix s "request.header." = false) :
    NewExtractor s = (none, some ("unsupported limiting variable: '" ++ s ++ "'")) := by
  unfold NewExtractor
  rw [if_neg h1, if_neg h2, h3]
  rfl

/-! ## Splitting at the first colon -/

theorem indexAux_colon_absent (l : List Char) (i : Nat) (h : ':' ∉ l) :
    indexAux [':'] l i = -1 := by
  induction l generalizing i with
  | nil => simp [indexAux, List.isPrefixOf]
  | cons c cs ih =>
    have hc : ¬ (':' = c) := fun e => h (e ▸ List.mem_cons_self _ _)
    have hcs : ':' ∉ cs := fun e => h (List.mem_cons_of_mem _ e)
    simp [indexAux, List.isPrefixOf, hc, ih (i + 1) hcs]

theorem indexAux_colon_first (l r : List Char) (i : Nat) (h : ':' ∉ l) :
    indexAux [':'] (l ++ ':' :: r) i = ((i + l.length : Nat) : Int) := by
  induction l generalizing i with
  | nil => simp [indexAux, List.isPrefixOf]
  | cons c cs ih =>
    have hc : ¬ (':' = c) := fun e => h (e ▸ List.mem_cons_self _ _)
    have hcs : ':' ∉ cs := fun e => h (List.mem_cons_of_mem _ e)
    show indexAux [':'] (c :: (cs ++ ':' :: r)) i = _
    rw [indexAux, ih (i + 1) hcs]
    simp only [List.isPrefixOf, beq_iff_eq, hc, Bool.and_true, decide_False,
      Bool.false_eq_true, if_false, List.length_cons]
    congr 1
    omega

theorem splitN_colon_absent (a : String) (h : ':' ∉ a.data) : SplitN a ":" 2 = [a] := by
  unfold SplitN genSplit
  rw [if_neg (by decide), if_neg (by decide)]
  simp only [show ¬ ((2 : Int) < 0) by decide, if_false]
  split
  · next hlt =>
    have hk : ((a.length : Int) + 1).toNat - 1 = 0 := by omega
    rw [hk]
    rfl
  · have : (2 : Int).toNat - 1 = 1 := rfl
    rw [this]
    show genSplitLoop [':'] 0 1 a.data = [a]
    simp [genSplitLoop, indexAux_colon_absent a.data 0 h]

theorem splitN_colon_first (h p : String) (hh : ':' ∉ h.data) :
    SplitN (h ++ ":" ++ p) ":" 2 = [h, p] := by
  unfold SplitN genSplit
  rw [if_neg (by decide), if_neg (by decide)]
  simp only [show ¬ ((2 : Int) < 0) by decide, if_false]
  have hd : (h ++ ":" ++ p).data = h.data ++ ':' :: p.data := by
    simp [String.data_append]
  have hlen : ¬ ((2 : Int) > ((h ++ ":" ++ p).length : Int) + 1) := by
    have : (h ++ ":" ++ p).length = h.data.length + (p.data.length + 1) := by
      show (h ++ ":" ++ p).data.length = _
      rw [hd]; simp
    rw [this]
    push_cast
    omega
  rw [if_neg hlen]
  have : (2 : Int).toNat - 1 = 1 := rfl
  rw [this, hd]
  show genSplitLoop [':'] 0 1 (h.data ++ ':' :: p.data) = [h, p]
  have hi : indexAux [':'] (h.data ++ ':' :: p.data) 0 = (h.data.length : Int) := by
    simpa using indexAux_colon_first h.data p.data 0 hh
  have hnn : ¬ ((h.data.length : Int) < 0) := by omega
  simp only [genSplitLoop, hi, hnn, if_false, Int.toNat_ofNat, Nat.add_zero, List.length_singleton]
  rw [List.take_left, List.drop_append, List.drop_one]
  rfl

/-- Every string either has no colon, or is a colon-free head, a colon and a rest. -/
theorem colon_cases (a : String) :
    ':' ∉ a.data ∨ ∃ h p : String, a = h ++ ":" ++ p ∧ ':' ∉ h.data := by
  by_cases hm : ':' ∈ a.data
  · right
    obtain ⟨l, r, hlr, hl⟩ := List.eq_append_cons_of_mem hm
    refine ⟨⟨l⟩, ⟨r⟩, ?_, hl⟩
    apply String.ext
    simp [String.data_append, hlr]
  · exact Or.inl hm

/-! ## The client address strategy -/

theorem extractClientIP_colon_absent (req : Request) (h : ':' ∉ req.RemoteAddr.data)
    (hne : req.RemoteAddr ≠ "") :
    extractClientIP req = some (req.RemoteAddr, 1, none) := by
  have hl : ¬ req.RemoteAddr.length = 0 := fun e => hne ((length_eq_zero_iff _).1 e)
  simp only [extractClientIP, splitN_colon_absent _ h, if_neg hl]

theorem extractClientIP_colon_first (req : Request) (h p : String)
    (ha : req.RemoteAddr = h ++ ":" ++ p) (hh : ':' ∉ h.data) (hne : h ≠ "") :
    extractClientIP req = some (h, 1, none) := by
  have hl : ¬ h.length = 0 := fun e => hne ((length_eq_zero_iff _).1 e)
  simp only [extractClientIP, ha, splitN_colon_first h p hh, if_neg hl]

theorem extractClientIP_empty (req : Request) (ha : req.RemoteAddr = "") :
    extractClientIP req = some ("", 0, some ("failed to parse client IP: " ++ req.RemoteAddr)) := by
  have hs : SplitN req.RemoteAddr ":" 2 = [""] := by rw [ha]; rfl
  simp only [extractClientIP, hs]
  rfl

theorem extractClientIP_colon_lead (req : Request) (p : String)
    (ha : req.RemoteAddr = ":" ++ p) :
    extractClientIP req = some ("", 0, some ("failed to parse client IP: " ++ req.RemoteAddr)) := by
  have hs : SplitN req.RemoteAddr ":" 2 = ["", p] := by
    have := splitN_colon_first "" p (by decide)
    rw [ha]
    exact this
  simp only [extractClientIP, hs]
  rfl

/-- A non-empty colon-free head, alone or followed by a colon, is neither
empty nor led by a colon. -/
theorem head_not_lead (tok a : String) (h1 : tok ≠ "") (h2 : ':' ∉ tok.data)
    (h : a = tok ∨ ∃ p : String, a = tok ++ ":" ++ p) :
    ¬ (a = "" ∨ ∃ p : String, a = ":" ++ p) := by
  obtain ⟨c, cs, hc⟩ : ∃ c cs, tok.data = c :: cs := by
    cases ht : tok.data with
    | nil => exact absurd (String.ext ht) h1
    | cons c cs => exact ⟨c, cs, rfl⟩
  have hcc : c ≠ ':' := fun e => h2 (by rw [hc, e]; exact List.mem_cons_self _ _)
  have ha : ∃ r, a.data = c :: r := by
    rcases h with h | ⟨p, h⟩
    · exact ⟨cs, by rw [h, hc]⟩
    · exact ⟨cs ++ (":" ++ p).data, by rw [h, String.append_assoc, String.data_append, hc]; rfl⟩
  obtain ⟨r, hr⟩ := ha
  rintro (e | ⟨p, e⟩)
  · rw [e] at hr
    exact List.noConfusion hr
  · rw [e, String.data_append] at hr
    have : ':' = c := by
      have h0 := congrArg List.head? hr
      simpa using h0
    exact hcc this.symm

/-- The two outcomes of `extractClientIP`, with the addresses that lead to each. -/
theorem extractClientIP_cases (req : Request) :
    (∃ tok : String, extractClientIP req = some (tok, 1, none) ∧ tok ≠ "" ∧ ':' ∉ tok.data ∧
        (req.RemoteAddr = tok ∨ ∃ p : String, req.RemoteAddr = tok ++ ":" ++ p)) ∨
    (extractClientIP req = some ("", 0, some ("failed to parse client IP: " ++ req.RemoteAddr)) ∧
        (req.RemoteAddr = "" ∨ ∃ p : String, req.RemoteAddr = ":" ++ p)) := by
  rcases colon_cases req.RemoteAddr with h | ⟨h, p, ha, hh⟩
  · by_cases he : req.RemoteAddr = ""
    · exact Or.inr ⟨extractClientIP_empty req he, Or.inl he⟩
    · exact Or.inl ⟨_, extractClientIP_colon_absent req h he, he, h, Or.inl rfl⟩
  · by_cases he : h = ""
    · subst he
      exact Or.inr ⟨extractClientIP_colon_lead req p ha, Or.inr ⟨p, ha⟩⟩
    · exact Or.inl ⟨h, extractClientIP_colon_first req h p ha hh he, he, hh, Or.inr ⟨p, ha⟩⟩

/-- What a successful `NewExtractor` call has built. -/
theorem newExtractor_success (s : String) (e : SourceExtractor)
    (h : NewExtractor s = (some e, none)) :
    (s = "client.ip" ∧ e = { Key := "client.ip", Func := extractClientIP }) ∨
    (s = "request.host" ∧ e = { Key := "request.host", Func := extractHost }) ∨
    (∃ N : String, N ≠ "" ∧ s = "request.header." ++ N ∧ e = makeHeaderExtractor N) := by
  by_cases h1 : s = "client.ip"
  · subst h1
    rw [newExtractor_clientIP] at h
    exact Or.inl ⟨rfl, (Option.some.inj (congrArg Prod.fst h)).symm⟩
  by_cases h2 : s = "request.host"
  · subst h2
    rw [newExtractor_host] at h
    exact Or.inr (Or.inl ⟨rfl, (Option.some.inj (congrArg Prod.fst h)).symm⟩)
  by_cases h3 : HasPrefix s "request.header." = true
  · obtain ⟨N, rfl⟩ := (hasPrefix_iff _ _).1 h3
    by_cases hN : N = ""
    · subst hN
      have h0 := congrArg Prod.fst h
      rw [show "request.header." ++ "" = "request.header." from rfl,
        newExtractor_header_empty] at h0
      exact Option.noConfusion h0
    · rw [newExtractor_header N hN] at h
      exact Or.inr (Or.inr ⟨N, hN, rfl, (Option.some.inj (congrArg Prod.fst h)).symm⟩)
  · rw [newExtractor_other s h1 h2 (by simpa using h3)] at h
    exact Option.noConfusion (congrArg Prod.fst h)

/-! ## Header lookup -/

theorem toLower_sub (n : Nat) (h1 : 97 ≤ n) (h2 : n ≤ 122) :
    Char.toLower (Char.ofNat (n - 32)) = Char.toLower (Char.ofNat n) := by
  interval_cases n <;> rfl

theorem toLower_add (n : Nat) (h1 : 65 ≤ n) (h2 : n ≤ 90) :
    Char.toLower (Char.ofNat (n + 32)) = Char.toLower (Char.ofNat n) := by
  interval_cases n <;> rfl

/-- The rewriting loop changes letter case only. -/
theorem canonLoop_toLower (upper : Bool) (l : List Char) :
    (canonLoop upper l).map Char.toLower = l.map Char.toLower := by
  induction l generalizing upper with
  | nil => rfl
  | cons c cs ih =>
    simp only [canonLoop, List.map_cons, ih]
    congr 1
    split
    · next h =>
      simp only [Bool.and_eq_true, decide_eq_true_eq] at h
      have e := toLower_sub c.toNat h.2.1 h.2.2
      rwa [Char.ofNat_toNat] at e
    · split
      · next h =>
        simp only [Bool.and_eq_true, decide_eq_true_eq] at h
        have e := toLower_add c.toNat h.2.1 h.2.2
        rwa [Char.ofNat_toNat] at e
      · rfl

theorem canonicalMIMEHeaderKey_toLower (a : List Char) :
    (canonicalMIMEHeaderKey a).map Char.toLower = a.map Char.toLower := by
  unfold canonicalMIMEHeaderKey
  split
  · rfl
  · rfl
  · exact canonLoop_toLower true a

theorem canonQuick_toLower (s : List Char) (upper : Bool) (rest : List Char) :
    (canonQuick s upper rest).map Char.toLower = s.map Char.toLower := by
  induction rest generalizing upper with
  | nil => rfl
  | cons c cs ih =>
    simp only [canonQuick]
    split
    · rfl
    · split
      · exact canonicalMIMEHeaderKey_toLower s
      · split
        · exact canonicalMIMEHeaderKey_toLower s
        · exact ih _

/-- The canonical form of a header key differs from the key in letter case only. -/
theorem CanonicalMIMEHeaderKey_toLower (s : String) :
    (CanonicalMIMEHeaderKey s).data.map Char.toLower = s.data.map Char.toLower :=
  canonQuick_toLower s.data true s.data

theorem lookup_absent (h : Header) (key : String)
    (hk : ∀ (k : String) (vs : List String), (k, vs) ∈ h → k ≠ key) :
    h.lookup key = none := by
  induction h with
  | nil => rfl
  | cons kv t ih =>
    obtain ⟨k, vs⟩ := kv
    have h1 : k ≠ key := hk k vs (List.mem_cons_self _ _)
    have h2 : (key == k) = false := by simpa using fun e => h1 e.symm
    rw [List.lookup_cons, h2]
    exact ih (fun k2 vs2 hm => hk k2 vs2 (List.mem_cons_of_mem _ hm))

/-- A header map without any key that equals `N` up to letter case yields the
empty string for `N`. -/
theorem get_absent (h : Header) (N : String)
    (hk : ∀ (k : String) (vs : List String), (k, vs) ∈ h →
      k.data.map Char.toLower ≠ N.data.map Char.toLower) :
    h.Get N = "" := by
  have hl : h.lookup (CanonicalMIMEHeaderKey N) = none := by
    apply lookup_absent
    intro k vs hm e
    apply hk k vs hm
    rw [e, CanonicalMIMEHeaderKey_toLower]
  simp only [Header.Get, hl]

/-- A colon-free head before a colon is determined by the whole list. -/
theorem colon_head_unique (l1 l2 r1 r2 : List Char) (h1 : ':' ∉ l1) (h2 : ':' ∉ l2)
    (h : l1 ++ ':' :: r1 = l2 ++ ':' :: r2) : l1 = l2 := by
  induction l1 generalizing l2 with
  | nil =>
    cases l2 with
    | nil => rfl
    | cons d ds =>
      have hd : ':' = d := List.head_eq_of_cons_eq h
      exact absurd (hd ▸ List.mem_cons_self _ _) h2
  | cons c cs ih =>
    cases l2 with
    | nil =>
      have hc : c = ':' := List.head_eq_of_cons_eq h
      exact absurd (hc ▸ List.mem_cons_self _ _) h1
    | cons d ds =>
      have hcd : c = d := List.head_eq_of_cons_eq h
      have ht : cs ++ ':' :: r1 = ds ++ ':' :: r2 := List.tail_eq_of_cons_eq h
      rw [hcd, ih ds (fun e => h1 (List.mem_cons_of_mem _ e))
        (fun e => h2 (List.mem_cons_of_mem _ e)) ht]

theorem colon_head_unique_str (a b p q : String) (h1 : ':' ∉ a.data) (h2 : ':' ∉ b.data)
    (h : a ++ ":" ++ p = b ++ ":" ++ q) : a = b := by
  apply String.ext
  have hd := congrArg String.data h
  simp only [String.data_append] at hd
  rw [List.append_assoc, List.append_assoc] at hd
  exact colon_head_unique a.data b.data p.data q.data h1 h2 hd

theorem colon_mem_append (a p : String) : ':' ∈ (a ++ ":" ++ p).data := by
  simp only [String.data_append]
  simp

/-! ## Letter case of the configured header name -/

theorem toNat_ofNat_add (n : Nat) (h1 : 65 ≤ n) (h2 : n ≤ 90) :
    (Char.ofNat (n + 32)).toNat = n + 32 := by
  interval_cases n <;> rfl

/-- Two characters with the same lower-case form are equal, or one is an
upper-case letter and the other its lower-case form. -/
theorem toLower_eq_cases (c d : Char) (h : c.toLower = d.toLower) :
    c = d ∨ (65 ≤ c.toNat ∧ c.toNat ≤ 90 ∧ d = Char.ofNat (c.toNat + 32)) ∨
      (65 ≤ d.toNat ∧ d.toNat ≤ 90 ∧ c = Char.ofNat (d.toNat + 32)) := by
  unfold Char.toLower at h
  simp only [ge_iff_le] at h
  by_cases hc : 65 ≤ c.toNat ∧ c.toNat ≤ 90
  · by_cases hd : 65 ≤ d.toNat ∧ d.toNat ≤ 90
    · rw [if_pos hc, if_pos hd] at h
      left
      have e := congrArg Char.toNat h
      rw [toNat_ofNat_add _ hc.1 hc.2, toNat_ofNat_add _ hd.1 hd.2] at e
      have e2 : c.toNat = d.toNat := by omega
      rw [← Char.ofNat_toNat c, ← Char.ofNat_toNat d, e2]
    · rw [if_pos hc, if_neg hd] at h
      exact Or.inr (Or.inl ⟨hc.1, hc.2, h.symm⟩)
  · by_cases hd : 65 ≤ d.toNat ∧ d.toNat ≤ 90
    · rw [if_neg hc, if_pos hd] at h
      exact Or.inr (Or.inr ⟨hd.1, hd.2, h⟩)
    · rw [if_neg hc, if_neg hd] at h
      exact Or.inl h

/-- One step of the rewriting loop sends an upper-case letter and its
lower-case form to the same character. -/
theorem canonStep_add (upper : Bool) (n : Nat) (h1 : 65 ≤ n) (h2 : n ≤ 90) :
    (if upper && decide ('a' ≤ Char.ofNat n ∧ Char.ofNat n ≤ 'z')
      then Char.ofNat ((Char.ofNat n).toNat - 32)
      else if !upper && decide ('A' ≤ Char.ofNat n ∧ Char.ofNat n ≤ 'Z')
        then Char.ofNat ((Char.ofNat n).toNat + 32)
        else Char.ofNat n) =
    (if upper && decide ('a' ≤ Char.ofNat (n + 32) ∧ Char.ofNat (n + 32) ≤ 'z')
      then Char.ofNat ((Char.ofNat (n + 32)).toNat - 32)
      else if !upper && decide ('A' ≤ Char.ofNat (n + 32) ∧ Char.ofNat (n + 32) ≤ 'Z')
        then Char.ofNat ((Char.ofNat (n + 32)).toNat + 32)
        else Char.ofNat (n + 32)) := by
  cases upper <;> interval_cases n <;> rfl

theorem valid_upper (n : Nat) (h1 : 65 ≤ n) (h2 : n ≤ 90) :
    validHeaderFieldByte (Char.ofNat n) = true ∧
      validHeaderFieldByte (Char.ofNat (n + 32)) = true := by
  interval_cases n <;> exact ⟨rfl, rfl⟩

/-- The rewriting loop gives the same key for two names that differ in letter
case only. -/
theorem canonLoop_congr (upper : Bool) (l1 l2 : List Char)
    (h : l1.map Char.toLower = l2.map Char.toLower) :
    canonLoop upper l1 = canonLoop upper l2 := by
  induction l1 generalizing l2 upper with
  | nil =>
    cases l2 with
    | nil => rfl
    | cons d ds => exact List.noConfusion h
  | cons c cs ih =>
    cases l2 with
    | nil => exact List.noConfusion h
    | cons d ds =>
      simp only [List.map_cons] at h
      have hcd : c.toLower = d.toLower := List.head_eq_of_cons_eq h
      have ht : cs.map Char.toLower = ds.map Char.toLower := List.tail_eq_of_cons_eq h
      have hstep :
          (if upper && decide ('a' ≤ c ∧ c ≤ 'z') then Char.ofNat (c.toNat - 32)
            else if !upper && decide ('A' ≤ c ∧ c ≤ 'Z') then Char.ofNat (c.toNat + 32)
            else c) =
          (if upper && decide ('a' ≤ d ∧ d ≤ 'z') then Char.ofNat (d.toNat - 32)
            else if !upper && decide ('A' ≤ d ∧ d ≤ 'Z') then Char.ofNat (d.toNat + 32)
            else d) := by
        rcases toLower_eq_cases c d hcd with e | ⟨h1, h2, e⟩ | ⟨h1, h2, e⟩
        · rw [e]
        · have hs := canonStep_add upper c.toNat h1 h2
          rw [Char.ofNat_toNat] at hs
          rw [e]
          exact hs
        · have hs := canonStep_add upper d.toNat h1 h2
          rw [Char.ofNat_toNat] at hs
          rw [e]
          exact hs.symm
      simp only [canonLoop]
      rw [hstep, ih _ ds ht]

/-- Token characters stay token characters under a change of letter case. -/
theorem valid_congr (l1 l2 : List Char) (h : l1.map Char.toLower = l2.map Char.toLower)
    (hv : ∀ c ∈ l1, validHeaderFieldByte c = true) :
    ∀ d ∈ l2, validHeaderFieldByte d = true := by
  induction l1 generalizing l2 with
  | nil =>
    cases l2 with
    | nil => intro d hd; exact absurd hd (List.not_mem_nil d)
    | cons d ds => exact List.noConfusion h
  | cons c cs ih =>
    cases l2 with
    | nil => exact List.noConfusion h
    | cons d ds =>
      simp only [List.map_cons] at h
      have hcd : c.toLower = d.toLower := List.head_eq_of_cons_eq h
      have ht : cs.map Char.toLower = ds.map Char.toLower := List.tail_eq_of_cons_eq h
      have hc : validHeaderFieldByte c = true := hv c (List.mem_cons_self _ _)
      have hd : validHeaderFieldByte d = true := by
        rcases toLower_eq_cases c d hcd with e | ⟨h1, h2, e⟩ | ⟨h1, h2, e⟩
        · rw [← e]; exact hc
        · rw [e]; exact (valid_upper c.toNat h1 h2).2
        · have hs := (valid_upper d.toNat h1 h2).1
          rwa [Char.ofNat_toNat] at hs
      intro x hx
      rcases List.mem_cons.1 hx with rfl | hx
      · exact hd
      · exact ih ds ht (fun y hy => hv y (List.mem_cons_of_mem _ hy)) x hx

theorem canonScan_valid (b : Bool) (l : List Char)
    (hv : ∀ c ∈ l, validHeaderFieldByte c = true) : canonScan b l = some b := by
  induction l with
  | nil => rfl
  | cons c cs ih =>
    rw [canonScan, if_pos (hv c (List.mem_cons_self _ _))]
    exact ih (fun y hy => hv y (List.mem_cons_of_mem _ hy))

theorem canonicalMIMEHeaderKey_valid (a : List Char)
    (hv : ∀ c ∈ a, validHeaderFieldByte c = true) :
    canonicalMIMEHeaderKey a = canonLoop true a := by
  unfold canonicalMIMEHeaderKey
  rw [canonScan_valid false a hv]

/-- On a key of token characters the quick check agrees with the rewriting
loop: it returns the key unchanged only when the loop would not change it. -/
theorem canonQuick_valid (s : List Char) (hs : ∀ c ∈ s, validHeaderFieldByte c = true)
    (pre rest : List Char) (upper : Bool) (hv : ∀ c ∈ rest, validHeaderFieldByte c = true)
    (h1 : s = pre ++ rest) (h2 : canonLoop true s = pre ++ canonLoop upper rest) :
    canonQuick s upper rest = canonLoop true s := by
  induction rest generalizing pre upper with
  | nil =>
    rw [canonQuick, h2, h1]
    rfl
  | cons c cs ih =>
    have hc : validHeaderFieldByte c = true := hv c (List.mem_cons_self _ _)
    rw [canonQuick]
    simp only [hc, Bool.not_true, Bool.false_eq_true, if_false]
    split
    · exact canonicalMIMEHeaderKey_valid s hs
    · next hA =>
      split
      · exact canonicalMIMEHeaderKey_valid s hs
      · next hB =>
        apply ih (pre ++ [c]) (c == '-') (fun y hy => hv y (List.mem_cons_of_mem _ hy))
        · rw [h1]; simp
        · rw [h2]
          simp only [canonLoop, hA, hB, if_false]
          simp

/-- On a name of token characters, the canonical key is the rewritten name. -/
theorem CanonicalMIMEHeaderKey_valid (N : String)
    (hv : ∀ c ∈ N.data, validHeaderFieldByte c = true) :
    CanonicalMIMEHeaderKey N = ⟨canonLoop true N.data⟩ := by
  unfold CanonicalMIMEHeaderKey
  rw [canonQuick_valid N.data hv [] N.data true hv rfl rfl]

theorem CanonicalMIMEHeaderKey_congr (N1 N2 : String)
    (hv : ∀ c ∈ N1.data, validHeaderFieldByte c = true)
    (h : N1.data.map Char.toLower = N2.data.map Char.toLower) :
    CanonicalMIMEHeaderKey N1 = CanonicalMIMEHeaderKey N2 := by
  rw [CanonicalMIMEHeaderKey_valid N1 hv,
    CanonicalMIMEHeaderKey_valid N2 (valid_congr _ _ h hv),
    canonLoop_congr true _ _ h]

theorem canonScan_true (l : List Char) : canonScan true l ≠ some false := by
  induction l with
  | nil => simp [canonScan]
  | cons c cs ih =>
    rw [canonScan]
    split
    · exact ih
    · split
      · exact ih
      · exact fun e => Option.noConfusion e

theorem canonScan_invalid (b : Bool) (l : List Char)
    (h : ∃ c ∈ l, validHeaderFieldByte c = false) : canonScan b l ≠ some false := by
  induction l generalizing b with
  | nil =>
    obtain ⟨c, hc, _⟩ := h
    exact absurd hc (List.not_mem_nil c)
  | cons c cs ih =>
    rw [canonScan]
    split
    · next hv =>
      apply ih
      obtain ⟨d, hd, hdv⟩ := h
      rcases List.mem_cons.1 hd with rfl | hd
      · rw [hv] at hdv
        exact Bool.noConfusion hdv
      · exact ⟨d, hd, hdv⟩
    · split
      · exact canonScan_true cs
      · exact fun e => Option.noConfusion e

theorem canonicalMIMEHeaderKey_invalid (a : List Char)
    (h : ∃ c ∈ a, validHeaderFieldByte c = false) : canonicalMIMEHeaderKey a = a := by
  unfold canonicalMIMEHeaderKey
  split
  · rfl
  · rfl
  · next e => exact absurd e (canonScan_invalid false a h)

theorem canonQuick_invalid (s : List Char) (h : ∃ c ∈ s, validHeaderFieldByte c = false)
    (upper : Bool) (rest : List Char) : canonQuick s upper rest = s := by
  induction rest generalizing upper with
  | nil => rfl
  | cons c cs ih =>
    rw [canonQuick]
    split
    · rfl
    · split
      · exact canonicalMIMEHeaderKey_invalid s h
      · split
        · exact canonicalMIMEHeaderKey_invalid s h
        · exact ih _

/-- A name that holds a character outside the token characters is its own
canonical key: it is looked up as written. -/
theorem CanonicalMIMEHeaderKey_invalid (N : String)
    (h : ∃ c ∈ N.data, validHeaderFieldByte c = false) : CanonicalMIMEHeaderKey N = N := by
  unfold CanonicalMIMEHeaderKey
  rw [canonQuick_invalid N.data h true N.data]

/-- A header map whose keys are all made of token characters has no value for
a name that holds another character. -/
theorem get_invalid (hd : Header) (N : String)
    (hk : ∀ (k : String) (vs : List String), (k, vs) ∈ hd →
      ∀ c ∈ k.data, validHeaderFieldByte c = true)
    (h : ∃ c ∈ N.data, validHeaderFieldByte c = false) : hd.Get N = "" := by
  have hl : hd.lookup (CanonicalMIMEHeaderKey N) = none := by
    rw [CanonicalMIMEHeaderKey_invalid N h]
    apply lookup_absent
    intro k vs hm e
    obtain ⟨c, hc, hcv⟩ := h
    have := hk k vs hm c (e ▸ hc)
    rw [hcv] at this
    exact Bool.noConfusion this
  simp only [Header.Get, hl]

/-- The value `Header.Get` returns is the first value stored under the
canonical form of the name, the empty string when there is none. -/
theorem get_eq_lookup (hd : Header) (N : String) :
    hd.Get N = ((hd.lookup (CanonicalMIMEHeaderKey N)).bind List.head?).getD "" := by
  unfold Header.Get
  cases hd.lookup (CanonicalMIMEHeaderKey N) with
  | none => rfl
  | some l =>
    cases l with
    | nil => rfl
    | cons v vs => rfl

/-! ## The claims -/

/-- C1. For every selector that is not `client.ip`, not `request.host`, and
does not start with `request.header.`, `NewExtractor` returns no strategy and
a non-nil error. -/
theorem C1_unrecognized_selector_rejected (s : String)
    (h1 : s ≠ "client.ip") (h2 : s ≠ "request.host")
    (h3 : ¬ ∃ t : String, s = "request.header." ++ t) :
    (NewExtractor s).1 = none ∧ (NewExtractor s).2 ≠ none := by
  have h3b : HasPrefix s "request.header." = false := by
    rw [← Bool.not_eq_true, hasPrefix_iff]
    exact h3
  rw [newExtractor_other s h1 h2 h3b]
  exact ⟨rfl, by simp⟩

theorem C1_witness :
    ((NewExtractor "").1 = none ∧ (NewExtractor "").2 ≠ none) ∧
    ((NewExtractor "Client.IP").1 = none ∧ (NewExtractor "Client.IP").2 ≠ none) :=
  ⟨C1_unrecognized_selector_rejected "" (by decide) (by decide)
      (by rw [← hasPrefix_iff]; decide),
   C1_unrecognized_selector_rejected "Client.IP" (by decide) (by decide)
      (by rw [← hasPrefix_iff]; decide)⟩

/-- C2. For each recognised selector, namely `client.ip`, `request.host`, or
`request.header.` followed by a non-empty header name, `NewExtractor` returns a
strategy and a nil error, and the strategy's `String()` is the selector itself. -/
theorem C2_recognized_selector_built (s : String)
    (h : s = "client.ip" ∨ s = "request.host" ∨
      ∃ N : String, N ≠ "" ∧ s = "request.header." ++ N) :
    ∃ e : SourceExtractor, NewExtractor s = (some e, none) ∧ e.String = s := by
  rcases h with rfl | rfl | ⟨N, hN, rfl⟩
  · exact ⟨_, newExtractor_clientIP, rfl⟩
  · exact ⟨_, newExtractor_host, rfl⟩
  · exact ⟨_, newExtractor_header N hN, rfl⟩

theorem C2_witness :
    ("request.header.X-Api-Key" = "client.ip" ∨ "request.header.X-Api-Key" = "request.host" ∨
      ∃ N : String, N ≠ "" ∧ "request.header.X-Api-Key" = "request.header." ++ N) ∧
    ∃ e : SourceExtractor, NewExtractor "request.header.X-Api-Key" = (some e, none) ∧
      e.String = "request.header.X-Api-Key" :=
  ⟨Or.inr (Or.inr ⟨"X-Api-Key", by decide, by decide⟩),
   C2_recognized_selector_built "request.header.X-Api-Key"
     (Or.inr (Or.inr ⟨"X-Api-Key", by decide, by decide⟩))⟩

/-- C3. The selector `request.header.`, the prefix with an empty header name,
makes `NewExtractor` return no strategy and the error `wrong header: `. -/
theorem C3_empty_header_name_rejected :
    NewExtractor "request.header." = (none, some "wrong header: ") :=
  newExtractor_header_empty

/-- C4. Whenever the `client.ip` strategy returns without error, its token is
the part of the remote address before the first colon (the whole address when
there is no colon): the address is the token, or the token followed by a colon
and a rest; the token is non-empty and colon-free and the amount is 1. And for
every address `h ++ ":" ++ p` with `h` non-empty and colon-free the result is
`(h, 1, nil)`. -/
theorem C4_client_ip_token_before_first_colon :
    ∃ e : SourceExtractor, NewExtractor "client.ip" = (some e, none) ∧
      (∀ (req : Request) (tok : String) (amt : Int),
        e.Extract req = some (tok, amt, none) →
          (req.RemoteAddr = tok ∨ ∃ p : String, req.RemoteAddr = tok ++ ":" ++ p) ∧
          tok ≠ "" ∧ ':' ∉ tok.data ∧ amt = 1) ∧
      (∀ (req : Request) (h p : String),
        req.RemoteAddr = h ++ ":" ++ p → h ≠ "" → ':' ∉ h.data →
          e.Extract req = some (h, 1, none)) := by
  refine ⟨_, newExtractor_clientIP, ?_, ?_⟩
  · intro req tok amt hx
    change extractClientIP req = some (tok, amt, none) at hx
    rcases extractClientIP_cases req with ⟨t, ht, h1, h2, h3⟩ | ⟨hf, _⟩
    · rw [ht] at hx
      have hx := Option.some.inj hx
      obtain ⟨rfl, hamt⟩ := Prod.mk.inj hx
      exact ⟨h3, h1, h2, (Prod.mk.inj hamt).1.symm⟩
    · rw [hf] at hx
      have hx := Option.some.inj hx
      have h0 := (Prod.mk.inj (Prod.mk.inj hx).2).2
      exact Option.noConfusion h0
  · intro req h p ha hne hh
    exact extractClientIP_colon_first req h p ha hh hne

theorem C4_witness :
    ∃ e : SourceExtractor, NewExtractor "client.ip" = (some e, none) ∧
      e.Extract { RemoteAddr := "203.0.113.7:54321", Host := "example.com", Header := [] }
        = some ("203.0.113.7", 1, none) :=
  match C4_client_ip_token_before_first_colon with
  | ⟨e, he, _, hx⟩ =>
    ⟨e, he,
     hx { RemoteAddr := "203.0.113.7:54321", Host := "example.com", Header := [] }
       "203.0.113.7" "54321" (by decide) (by decide) (by decide)⟩

/-- C5. The `client.ip` strategy returns normally on every request, and it
returns an error exactly when the remote address is empty or begins with a
colon. -/
theorem C5_client_ip_error_iff :
    ∃ e : SourceExtractor, NewExtractor "client.ip" = (some e, none) ∧
      ∀ req : Request, ∃ (tok : String) (amt : Int) (err : error),
        e.Extract req = some (tok, amt, err) ∧
        (err ≠ none ↔ (req.RemoteAddr = "" ∨ ∃ p : String, req.RemoteAddr = ":" ++ p)) := by
  refine ⟨_, newExtractor_clientIP, ?_⟩
  intro req
  rcases extractClientIP_cases req with ⟨t, ht, h1, h2, h3⟩ | ⟨hf, ha⟩
  · refine ⟨t, 1, none, ht, ?_⟩
    constructor
    · intro h; exact absurd rfl h
    · intro h; exact absurd h (head_not_lead t _ h1 h2 h3)
  · refine ⟨_, _, _, hf, ?_⟩
    constructor
    · intro _; exact ha
    · intro _; exact Option.noConfusion

/-- C6 (as stated, refuted). The remote address `[2001:db8::1]:8080` is the
address `[2001:db8::1]`, a colon and the colon-free port `8080`, yet the
`client.ip` strategy returns the token `[2001`, the part before the first
colon, not the address portion before the last colon. -/
theorem C6_counterexample :
    ("[2001:db8::1]:8080" = "[2001:db8::1]" ++ ":" ++ "8080" ∧ ':' ∉ "8080".data) ∧
    ∃ e : SourceExtractor, NewExtractor "client.ip" = (some e, none) ∧
      e.Extract { RemoteAddr := "[2001:db8::1]:8080", Host := "", Header := [] }
        = some ("[2001", 1, none) ∧
      "[2001" ≠ "[2001:db8::1]" :=
  ⟨⟨by decide, by decide⟩, _, newExtractor_clientIP, by decide, by decide⟩

/-- C6 (amended). For every request whose remote address is `a ++ ":" ++ p`
(in particular an address `a`, the last colon and a colon-free port `p`), the
`client.ip` strategy returns normally; when it returns no error its token is
the part of the remote address before the first colon (colon-free and
followed by a colon); and the token is `a`, the address portion before the
last colon, exactly when `a` has no colon of its own. -/
theorem C6_client_ip_token_first_colon (req : Request) (a p : String)
    (ha : req.RemoteAddr = a ++ ":" ++ p) :
    ∃ e : SourceExtractor, NewExtractor "client.ip" = (some e, none) ∧
      ∃ (tok : String) (amt : Int) (err : error), e.Extract req = some (tok, amt, err) ∧
        (err = none → ':' ∉ tok.data ∧ ∃ q : String, req.RemoteAddr = tok ++ ":" ++ q) ∧
        (tok = a ↔ ':' ∉ a.data) := by
  have hmem : ':' ∈ req.RemoteAddr.data := ha ▸ colon_mem_append a p
  refine ⟨_, newExtractor_clientIP, ?_⟩
  rcases extractClientIP_cases req with ⟨t, ht, h1, h2, h3⟩ | ⟨hf, hl⟩
  · have hq : ∃ q : String, req.RemoteAddr = t ++ ":" ++ q := by
      rcases h3 with h3 | h3
      · exact absurd (h3 ▸ hmem) h2
      · exact h3
    refine ⟨t, 1, none, ht, fun _ => ⟨h2, hq⟩, ?_⟩
    obtain ⟨q, hq⟩ := hq
    constructor
    · intro e; exact e ▸ h2
    · intro hc; exact colon_head_unique_str t a q p h2 hc (hq.symm.trans ha)
  · refine ⟨_, _, _, hf, fun e => Option.noConfusion e, ?_⟩
    have hq : ∃ q : String, req.RemoteAddr = "" ++ ":" ++ q := by
      rcases hl with hl | hl
      · rw [hl] at hmem
        exact absurd hmem (by decide)
      · exact hl
    obtain ⟨q, hq⟩ := hq
    constructor
    · intro e; rw [← e]; decide
    · intro hc; exact colon_head_unique_str "" a q p (by decide) hc (hq.symm.trans ha)

theorem C6_witness :
    ("203.0.113.7:54321" = "203.0.113.7" ++ ":" ++ "54321" ∧ ':' ∉ "54321".data) ∧
    ∃ e : SourceExtractor, NewExtractor "client.ip" = (some e, none) ∧
      ∃ (tok : String) (amt : Int) (err : error),
        e.Extract { RemoteAddr := "203.0.113.7:54321", Host := "example.com", Header := [] }
          = some (tok, amt, err) ∧
        (err = none → ':' ∉ tok.data ∧
          ∃ q : String, "203.0.113.7:54321" = tok ++ ":" ++ q) ∧
        (tok = "203.0.113.7" ↔ ':' ∉ "203.0.113.7".data) :=
  ⟨⟨by decide, by decide⟩,
   C6_client_ip_token_first_colon
     { RemoteAddr := "203.0.113.7:54321", Host := "example.com", Header := [] }
     "203.0.113.7" "54321" (by decide)⟩

/-- C7. For every non-empty header name `N`, the selector `request.header.`
followed by `N` builds a strategy that on every request returns the request's
header value for `N` (as `Header.Get` gives it) with amount 1 and a nil error;
`N` is everything after the leading prefix. On a request that has no header
whose name equals `N` up to letter case, the result is the empty token with
amount 1 and a nil error. -/
theorem C7_header_strategy (N : String) (hN : N ≠ "") :
    ∃ e : SourceExtractor, NewExtractor ("request.header." ++ N) = (some e, none) ∧
      ∀ req : Request,
        e.Extract req = some (req.Header.Get N, 1, none) ∧
        ((∀ (k : String) (vs : List String), (k, vs) ∈ req.Header →
            k.data.map Char.toLower ≠ N.data.map Char.toLower) →
          e.Extract req = some ("", 1, none)) := by
  refine ⟨_, newExtractor_header N hN, ?_⟩
  intro req
  refine ⟨rfl, ?_⟩
  intro hk
  show some (req.Header.Get N, (1 : Int), (none : error)) = some ("", 1, none)
  rw [get_absent req.Header N hk]

theorem C7_witness :
    "X-Api-Key" ≠ "" ∧
    ∃ e : SourceExtractor, NewExtractor ("request.header." ++ "X-Api-Key") = (some e, none) ∧
      e.Extract { RemoteAddr := "203.0.113.7:54321", Host := "example.com",
                  Header := [("X-Api-Key", ["abc123"])] } = some ("abc123", 1, none) ∧
      e.Extract { RemoteAddr := "203.0.113.7:54321", Host := "example.com",
                  Header := [("Accept", ["text/html"])] } = some ("", 1, none) :=
  ⟨by decide,
   match C7_header_strategy "X-Api-Key" (by decide) with
   | ⟨e, he, hx⟩ =>
     ⟨e, he,
      (hx { RemoteAddr := "203.0.113.7:54321", Host := "example.com",
            Header := [("X-Api-Key", ["abc123"])] }).1,
      (hx { RemoteAddr := "203.0.113.7:54321", Host := "example.com",
            Header := [("Accept", ["text/html"])] }).2
        (by
          intro k vs hm
          simp only [List.mem_singleton, Prod.mk.injEq] at hm
          rw [hm.1]
          decide)⟩⟩

/-- C8. The selector `request.host` builds a strategy that on every request
returns the request's `Host` field itself, unchanged, with amount 1 and a nil
error. -/
theorem C8_host_strategy :
    ∃ e : SourceExtractor, NewExtractor "request.host" = (some e, none) ∧
      ∀ req : Request, e.Extract req = some (req.Host, 1, none) :=
  ⟨_, newExtractor_host, fun _ => rfl⟩

/-- C9. For every selector on which `NewExtractor` succeeds and every request,
`Extract` returns normally; the amount is 1 when the error is nil, it is 0
when an error is returned, and so it is never negative. -/
theorem C9_amount (s : String) (e : SourceExtractor)
    (h : NewExtractor s = (some e, none)) (req : Request) :
    ∃ (tok : String) (amt : Int) (err : error), e.Extract req = some (tok, amt, err) ∧
      (err = none → amt = 1) ∧ (err ≠ none → amt = 0) ∧ 0 ≤ amt := by
  rcases newExtractor_success s e h with ⟨_, rfl⟩ | ⟨_, rfl⟩ | ⟨N, _, _, rfl⟩
  · rcases extractClientIP_cases req with ⟨t, ht, _⟩ | ⟨hf, _⟩
    · exact ⟨t, 1, none, ht, fun _ => rfl, fun e => absurd rfl e, by decide⟩
    · exact ⟨_, _, _, hf, fun e => Option.noConfusion e, fun _ => rfl, by decide⟩
  · exact ⟨_, _, _, rfl, fun _ => rfl, fun e => absurd rfl e, by decide⟩
  · exact ⟨_, _, _, rfl, fun _ => rfl, fun e => absurd rfl e, by decide⟩

theorem C9_witness :
    NewExtractor "client.ip" = (some { Key := "client.ip", Func := extractClientIP }, none) ∧
    ∃ (tok : String) (amt : Int) (err : error),
      ExtractorFunc.Extract { Key := "client.ip", Func := extractClientIP }
        { RemoteAddr := "", Host := "example.com", Header := [] } = some (tok, amt, err) ∧
      (err = none → amt = 1) ∧ (err ≠ none → amt = 0) ∧ 0 ≤ amt :=
  ⟨rfl, C9_amount "client.ip" { Key := "client.ip", Func := extractClientIP } rfl
    { RemoteAddr := "", Host := "example.com", Header := [] }⟩

/-- C10. Round trip: when `NewExtractor s` succeeds with the strategy `e`, the
name `e.String()` is `s`, and `NewExtractor` on that name succeeds with a
strategy of the same name that returns the same result as `e` on every
request. -/
theorem C10_round_trip (s : String) (e : SourceExtractor)
    (h : NewExtractor s = (some e, none)) :
    e.String = s ∧
    ∃ e2 : SourceExtractor, NewExtractor e.String = (some e2, none) ∧
      e2.String = e.String ∧ ∀ req : Request, e2.Extract req = e.Extract req := by
  have hs : e.String = s := by
    rcases newExtractor_success s e h with ⟨rfl, rfl⟩ | ⟨rfl, rfl⟩ | ⟨N, _, rfl, rfl⟩ <;> rfl
  refine ⟨hs, e, ?_, rfl, fun _ => rfl⟩
  rw [hs]
  exact h

theorem C10_witness :
    NewExtractor "request.header.X-Api-Key"
      = (some (makeHeaderExtractor "X-Api-Key"), none) ∧
    (makeHeaderExtractor "X-Api-Key").String = "request.header.X-Api-Key" ∧
    ∃ e2 : SourceExtractor,
      NewExtractor (makeHeaderExtractor "X-Api-Key").String = (some e2, none) ∧
      e2.String = (makeHeaderExtractor "X-Api-Key").String ∧
      ∀ req : Request, e2.Extract req = (makeHeaderExtractor "X-Api-Key").Extract req :=
  ⟨rfl, C10_round_trip "request.header.X-Api-Key" (makeHeaderExtractor "X-Api-Key") rfl⟩

/-- C11. Noninterference of the `client.ip` strategy: on two requests with the
same remote address it returns the same result (token, amount and error),
whatever their hosts and headers are. -/
theorem C11_client_ip_noninterference (r1 r2 : Request)
    (h : r1.RemoteAddr = r2.RemoteAddr) :
    ∃ e : SourceExtractor, NewExtractor "client.ip" = (some e, none) ∧
      e.Extract r1 = e.Extract r2 := by
  refine ⟨_, newExtractor_clientIP, ?_⟩
  show extractClientIP r1 = extractClientIP r2
  unfold extractClientIP
  rw [h]

theorem C11_witness :
    "203.0.113.7:54321" = "203.0.113.7:54321" ∧
    ∃ e : SourceExtractor, NewExtractor "client.ip" = (some e, none) ∧
      e.Extract { RemoteAddr := "203.0.113.7:54321", Host := "example.com", Header := [] }
        = e.Extract { RemoteAddr := "203.0.113.7:54321", Host := "other.example",
                      Header := [("X-Forwarded-For", ["198.51.100.9"])] } :=
  ⟨rfl,
   C11_client_ip_noninterference
     { RemoteAddr := "203.0.113.7:54321", Host := "example.com", Header := [] }
     { RemoteAddr := "203.0.113.7:54321", Host := "other.example",
       Header := [("X-Forwarded-For", ["198.51.100.9"])] }
     rfl⟩

/-- C12 (as stated, refuted). The names `x key` and `X key` are non-empty and
differ in letter case only, yet on a request whose header map has the key
`x key` the two strategies return different tokens: a name with a space is
not canonicalised, so it is looked up as written. -/
theorem C12_counterexample :
    ("x key" ≠ "" ∧ "X key" ≠ "" ∧
      "x key".data.map Char.toLower = "X key".data.map Char.toLower) ∧
    ∃ e1 e2 : SourceExtractor,
      NewExtractor ("request.header." ++ "x key") = (some e1, none) ∧
      NewExtractor ("request.header." ++ "X key") = (some e2, none) ∧
      e1.Extract { RemoteAddr := "203.0.113.7:54321", Host := "example.com",
                   Header := [("x key", ["abc123"])] } = some ("abc123", 1, none) ∧
      e2.Extract { RemoteAddr := "203.0.113.7:54321", Host := "example.com",
                   Header := [("x key", ["abc123"])] } = some ("", 1, none) :=
  ⟨⟨by decide, by decide, by decide⟩,
   makeHeaderExtractor "x key", makeHeaderExtractor "X key",
   newExtractor_header "x key" (by decide), newExtractor_header "X key" (by decide),
   by decide, by decide⟩

/-- C12 (amended). For every two non-empty header names `N1` and `N2` that
differ in ASCII letter case only, the strategies built from `request.header.`
followed by `N1` and by `N2` keep the case of their names as given. When the
names are made of header token characters only, the two strategies return the
same result on every request: the first value stored under the canonical
form of the name, the empty token when there is none. When the names hold a
character outside the token characters, the lookup is by the name as
written: each strategy returns the first value stored under exactly its own
name (the empty token when there is none), so when the two names differ some
request tells them apart. On a request whose header keys are all made of
token characters the two strategies return the same result whatever the
names are. -/
theorem C12_header_name_case (N1 N2 : String) (h1 : N1 ≠ "") (h2 : N2 ≠ "")
    (h : N1.data.map Char.toLower = N2.data.map Char.toLower) :
    ∃ e1 e2 : SourceExtractor,
      NewExtractor ("request.header." ++ N1) = (some e1, none) ∧
      NewExtractor ("request.header." ++ N2) = (some e2, none) ∧
      e1.String = "request.header." ++ N1 ∧ e2.String = "request.header." ++ N2 ∧
      ((∀ c ∈ N1.data, validHeaderFieldByte c = true) →
        ∀ req : Request,
          e1.Extract req = e2.Extract req ∧
          e1.Extract req =
            some (((req.Header.lookup ⟨canonLoop true N1.data⟩).bind List.head?).getD "",
              1, none)) ∧
      (∀ req : Request,
        (∀ (k : String) (vs : List String), (k, vs) ∈ req.Header →
          ∀ c ∈ k.data, validHeaderFieldByte c = true) →
        e1.Extract req = e2.Extract req) ∧
      ((∃ c ∈ N1.data, validHeaderFieldByte c = false) →
        (∀ req : Request,
          e1.Extract req = some (((req.Header.lookup N1).bind List.head?).getD "", 1, none) ∧
          e2.Extract req = some (((req.Header.lookup N2).bind List.head?).getD "", 1, none)) ∧
        (N1 ≠ N2 → ∃ req : Request, e1.Extract req ≠ e2.Extract req)) := by
  have hx : ∀ (N : String) (req : Request),
      (makeHeaderExtractor N).Extract req = some (req.Header.Get N, 1, none) :=
    fun _ _ => rfl
  have hval : (∀ c ∈ N1.data, validHeaderFieldByte c = true) →
      ∀ req : Request,
        (makeHeaderExtractor N1).Extract req = (makeHeaderExtractor N2).Extract req := by
    intro hv req
    rw [hx, hx]
    unfold Header.Get
    rw [CanonicalMIMEHeaderKey_congr N1 N2 hv h]
  have hinv2 : (∃ c ∈ N1.data, validHeaderFieldByte c = false) →
      ∃ c ∈ N2.data, validHeaderFieldByte c = false := by
    intro hi1
    by_contra hn
    obtain ⟨c, hc, hcv⟩ := hi1
    have hv2 : ∀ d ∈ N2.data, validHeaderFieldByte d = true := by
      intro d hd
      by_contra hdv
      exact hn ⟨d, hd, by simpa using hdv⟩
    have := valid_congr N2.data N1.data h.symm hv2 c hc
    rw [hcv] at this
    exact Bool.noConfusion this
  have hname : ∀ N : String, (∃ c ∈ N.data, validHeaderFieldByte c = false) →
      ∀ req : Request, (makeHeaderExtractor N).Extract req
        = some (((req.Header.lookup N).bind List.head?).getD "", 1, none) := by
    intro N hi req
    rw [hx, get_eq_lookup, CanonicalMIMEHeaderKey_invalid N hi]
  refine ⟨_, _, newExtractor_header N1 h1, newExtractor_header N2 h2, rfl, rfl, ?_, ?_, ?_⟩
  · intro hv req
    refine ⟨hval hv req, ?_⟩
    rw [hx, get_eq_lookup, CanonicalMIMEHeaderKey_valid N1 hv]
  · intro req hk
    by_cases hv : ∀ c ∈ N1.data, validHeaderFieldByte c = true
    · exact hval hv req
    · have hi1 : ∃ c ∈ N1.data, validHeaderFieldByte c = false := by
        by_contra hn
        apply hv
        intro c hc
        by_contra hcv
        exact hn ⟨c, hc, by simpa using hcv⟩
      rw [hx, hx, get_invalid req.Header N1 hk hi1, get_invalid req.Header N2 hk (hinv2 hi1)]
  · intro hi1
    refine ⟨fun req => ⟨hname N1 hi1 req, hname N2 (hinv2 hi1) req⟩, ?_⟩
    intro hne
    refine ⟨{ RemoteAddr := "", Host := "", Header := [(N1, ["v"])] }, ?_⟩
    rw [hname N1 hi1, hname N2 (hinv2 hi1)]
    have e1 : (N1 == N1) = true := by simp
    have e2 : (N2 == N1) = false := by simpa using fun e => hne e.symm
    simp only [List.lookup_cons, e1, e2, List.lookup_nil]
    decide

theorem C12_witness :
    (("x-api-key" ≠ "" ∧ "X-API-KEY" ≠ "" ∧
        "x-api-key".data.map Char.toLower = "X-API-KEY".data.map Char.toLower) ∧
      ∃ e1 e2 : SourceExtractor,
        NewExtractor ("request.header." ++ "x-api-key") = (some e1, none) ∧
        NewExtractor ("request.header." ++ "X-API-KEY") = (some e2, none) ∧
        e1.String = "request.header.x-api-key" ∧ e2.String = "request.header.X-API-KEY" ∧
        e1.Extract { RemoteAddr := "203.0.113.7:54321", Host := "example.com",
                     Header := [("X-Api-Key", ["abc123"])] } = some ("abc123", 1, none) ∧
        e2.Extract { RemoteAddr := "203.0.113.7:54321", Host := "example.com",
                     Header := [("X-Api-Key", ["abc123"])] } = some ("abc123", 1, none)) ∧
    (("x@key" ≠ "" ∧ "X@key" ≠ "" ∧
        "x@key".data.map Char.toLower = "X@key".data.map Char.toLower) ∧
      ∃ e1 e2 : SourceExtractor,
        NewExtractor ("request.header." ++ "x@key") = (some e1, none) ∧
        NewExtractor ("request.header." ++ "X@key") = (some e2, none) ∧
        e1.Extract { RemoteAddr := "203.0.113.7:54321", Host := "example.com",
                     Header := [("x@key", ["v"])] } = some ("v", 1, none) ∧
        e2.Extract { RemoteAddr := "203.0.113.7:54321", Host := "example.com",
                     Header := [("x@key", ["v"])] } = some ("", 1, none)) :=
  ⟨⟨⟨by decide, by decide, by decide⟩,
    match C12_header_name_case "x-api-key" "X-API-KEY" (by decide) (by decide) (by decide) with
    | ⟨e1, e2, he1, he2, hs1, hs2, hx, _, _⟩ =>
      ⟨e1, e2, he1, he2, hs1, hs2,
       (hx (by decide) _).2.trans (by decide),
       ((hx (by decide) _).1.symm.trans (hx (by decide) _).2).trans (by decide)⟩⟩,
   ⟨⟨by decide, by decide, by decide⟩,
    match C12_header_name_case "x@key" "X@key" (by decide) (by decide) (by decide) with
    | ⟨e1, e2, he1, he2, _, _, _, _, hn⟩ =>
      ⟨e1, e2, he1, he2,
       ((hn ⟨'@', by decide, by decide⟩).1 _).1.trans (by decide),
       ((hn ⟨'@', by decide, by decide⟩).1 _).2.trans (by decide)⟩⟩⟩

/-- C13. For every selector rejected as unrecognised (not a fixed selector and
not starting with `request.header.`), the error of `NewExtractor` names the
selector: its text is `unsupported limiting variable: '`, the selector, and a
closing quote; no strategy is returned. -/
theorem C13_unrecognized_selector_message (s : String)
    (h1 : s ≠ "client.ip") (h2 : s ≠ "request.host")
    (h3 : ¬ ∃ t : String, s = "request.header." ++ t) :
    NewExtractor s = (none, some ("unsupported limiting variable: '" ++ s ++ "'")) := by
  have h3b : HasPrefix s "request.header." = false := by
    rw [← Bool.not_eq_true, hasPrefix_iff]
    exact h3
  exact newExtractor_other s h1 h2 h3b

theorem C13_witness :
    ("client.address" ≠ "client.ip" ∧ "client.address" ≠ "request.host" ∧
      ¬ ∃ t : String, "client.address" = "request.header." ++ t) ∧
    NewExtractor "client.address"
      = (none, some "unsupported limiting variable: 'client.address'") :=
  ⟨⟨by decide, by decide, by rw [← hasPrefix_iff]; decide⟩,
   C13_unrecognized_selector_message "client.address" (by decide) (by decide)
     (by rw [← hasPrefix_iff]; decide)⟩

/-- C14. For every remote address, splitting it at `:` into at most 2 pieces
gives one or two pieces, so `vals[0]` is in bounds: `extractClientIP`, and so
the `client.ip` strategy, returns normally on every request and never
panics. -/
theorem C14_client_ip_never_panics :
    (∀ a : String, 1 ≤ (SplitN a ":" 2).length ∧ (SplitN a ":" 2).length ≤ 2) ∧
    (∀ req : Request, ∃ r : Extracted, extractClientIP req = some r) ∧
    ∃ e : SourceExtractor, NewExtractor "client.ip" = (some e, none) ∧
      ∀ req : Request, ∃ r : Extracted, e.Extract req = some r := by
  have hx : ∀ req : Request, ∃ r : Extracted, extractClientIP req = some r := by
    intro req
    rcases extractClientIP_cases req with ⟨t, ht, _⟩ | ⟨hf, _⟩
    · exact ⟨_, ht⟩
    · exact ⟨_, hf⟩
  refine ⟨?_, hx, _, newExtractor_clientIP, hx⟩
  intro a
  rcases colon_cases a with h | ⟨h, p, rfl, hh⟩
  · rw [splitN_colon_absent a h]
    exact ⟨Nat.le_refl _, Nat.le_succ 1⟩
  · rw [splitN_colon_first h p hh]
    exact ⟨Nat.le_succ 1, Nat.le_refl _⟩

end Oxy
